import Mathlib

/-!
Verification of the MK-Processor extraction engine (`src/main.py` and
`src/disabled_plugins/x-multi_prefix_plugin.py`).

Python strings are modelled as Lean `String`s; all character-level
operations (strip, lower-casing, substring search, regex-like token
scans) are defined explicitly over `String.data` so that every
definition is executable by kernel reduction.  Decimal parsing and
`math.ceil` are modelled with exact arithmetic (`ℚ`), which agrees with
the Python float path on all inputs whose numeric token fits in double
precision.  DOM queries (`find_elements`, attribute reads, page source
regex matches) are modelled as abstract input fields of a document
structure, in document order.
-/

/-- ASCII decimal digit test, modelling the `\d` class of the regexes in
`main.py` (ASCII reading). -/
def isDig (c : Char) : Bool := 48 ≤ c.toNat && c.toNat ≤ 57

/-- Whitespace as recognised by Python's `str.strip` / `\s` (ASCII part). -/
def pySpace (c : Char) : Bool :=
  c == ' ' || c == '\t' || c == '\n' || c == '\r' || c == '\x0b' || c == '\x0c'

/-- Python `str.strip()` on a character list. -/
def stripChars (cs : List Char) : List Char :=
  ((cs.dropWhile pySpace).reverse.dropWhile pySpace).reverse

/-- Python `str.strip()`. -/
def stripStr (s : String) : String := ⟨stripChars s.data⟩

/-- Python `str.lower()` (ASCII case folding, as used on the scraped keys). -/
def lowerStr (s : String) : String := ⟨s.data.map Char.toLower⟩

/-- `ndl` is a prefix of `hay` (Boolean). -/
def listIsPre : List Char → List Char → Bool
  | [], _ => true
  | _ :: _, [] => false
  | a :: as, b :: bs => a == b && listIsPre as bs

/-- `ndl` occurs as a contiguous substring of `hay` (Boolean), modelling
Python's `ndl in hay` on strings. -/
def hasSub : List Char → List Char → Bool
  | [], ndl => listIsPre ndl []
  | c :: rest, ndl => listIsPre ndl (c :: rest) || hasSub rest ndl

/-- Python `ndl in hay` for strings. -/
def strContains (hay ndl : String) : Bool := hasSub hay.data ndl.data

/-- Numeric value of a digit character. -/
def digitVal (c : Char) : Nat := c.toNat - 48

/-- Value of a digit string, as parsed by Python's `float`/`int` on the
integral part (most significant digit first). -/
def natOfDigits : List Char → Nat
  | [] => 0
  | c :: cs => digitVal c * 10 ^ cs.length + natOfDigits cs

/-- The decimal digit character for `n < 10`. -/
def digitChar : Nat → Char
  | 0 => '0' | 1 => '1' | 2 => '2' | 3 => '3' | 4 => '4'
  | 5 => '5' | 6 => '6' | 7 => '7' | 8 => '8' | _ => '9'

/-- Fuelled decimal printing helper (structural recursion so that the
kernel can evaluate it). -/
def natToDigitsAux : Nat → Nat → List Char
  | 0, _ => []
  | fuel + 1, n =>
    if n < 10 then [digitChar n]
    else natToDigitsAux fuel (n / 10) ++ [digitChar (n % 10)]

/-- Decimal digits of `n`, modelling Python `str(n)` for a non-negative
integer. -/
def natToDigits (n : Nat) : List Char := natToDigitsAux (n + 1) n

/-- The optional `(\.\d+)?` part of the token regex: after the integral
digits, a fraction is matched only when a `'.'` follows with at least
one digit behind it. -/
def fracPart : List Char → List Char
  | [] => []
  | d :: r2 => if d == '.' && isDig (r2.headD ' ') then r2.takeWhile isDig else []

/-- First match of the regex `(\d+(\.\d+)?)` in a character list:
integral digits plus optional fractional digits.  Returns `none` when
the string holds no digit. -/
def findNumericToken : List Char → Option (List Char × List Char)
  | [] => none
  | c :: cs =>
    if isDig c then some ((c :: cs).takeWhile isDig, fracPart ((c :: cs).dropWhile isDig))
    else findNumericToken cs

/-- The trailing run matched by the regex `[^\d.]+$`: maximal suffix of
characters that are neither digits nor `'.'`. -/
def unitsRun (cs : List Char) : List Char :=
  (cs.reverse.takeWhile (fun c => !isDig c && c != '.')).reverse

/-- Exact value of a numeric token (integral digits, fractional digits),
modelling Python's `float(number_match.group(1))`. -/
def tokenValue (ip fp : List Char) : ℚ :=
  (natOfDigits ip : ℚ) + (natOfDigits fp : ℚ) / (10 : ℚ) ^ fp.length

/-- Executable ceiling of a numeric token, modelling
`math.ceil(float(tok))`: the integral part, plus one when the
fractional digits are not all zero. -/
def ceilTok (ip fp : List Char) : Nat :=
  natOfDigits ip + (if fp.any (fun c => c != '0') then 1 else 0)

/-- `SheetRow.process_weight_value` (`main.py:428-452`): extract the
first numeric token, round it up, add 5, and re-attach the trailing
(trimmed) unit text, separated by one space when non-empty; inputs with
no numeric token are returned unchanged.  The function is total, which
models the catch-all `except` returning the original value. -/
def process_weight_value (value : String) : String :=
  match findNumericToken value.data with
  | none => value
  | some (ip, fp) =>
    let final := ceilTok ip fp + 5
    let units := stripChars (unitsRun value.data)
    ⟨natToDigits final⟩ ++ (if units ≠ [] then " " ++ (⟨units⟩ : String) else "")

lemma char_eq_of_toNat_eq {c d : Char} (h : c.toNat = d.toNat) : c = d := by
  cases c; cases d
  cases UInt32.ext h
  rfl

lemma isDig_iff {c : Char} : isDig c = true ↔ 48 ≤ c.toNat ∧ c.toNat ≤ 57 := by
  simp [isDig]

lemma isDig_ne_dot {c : Char} (h : isDig c = true) : c ≠ '.' := by
  intro he; subst he; simp [isDig] at h

lemma isDig_not_pySpace {c : Char} (h : isDig c = true) : pySpace c = false := by
  rcases isDig_iff.mp h with ⟨h1, h2⟩
  have k : ∀ d : Char, d.toNat < 48 → (c == d) = false := by
    intro d hd
    apply beq_eq_false_iff_ne.mpr
    intro he; subst he; omega
  simp only [pySpace, k ' ' (by decide), k '\t' (by decide), k '\n' (by decide),
    k '\r' (by decide), k '\x0b' (by decide), k '\x0c' (by decide), Bool.or_false]

lemma digitVal_digitChar {d : Nat} (h : d < 10) : digitVal (digitChar d) = d := by
  interval_cases d <;> rfl

lemma isDig_digitChar (d : Nat) : isDig (digitChar d) = true := by
  match d with
  | 0 | 1 | 2 | 3 | 4 | 5 | 6 | 7 | 8 => rfl
  | n + 9 => rfl

lemma natToDigitsAux_congr : ∀ f₁ f₂ n, n < f₁ → n < f₂ →
    natToDigitsAux f₁ n = natToDigitsAux f₂ n := by
  intro f₁
  induction f₁ with
  | zero => intro f₂ n h; omega
  | succ f ih =>
    intro f₂ n h₁ h₂
    match f₂, h₂ with
    | f₂ + 1, _ =>
      simp only [natToDigitsAux]
      by_cases h10 : n < 10
      · simp [h10]
      · have hd : n / 10 < n := Nat.div_lt_self (by omega) (by omega)
        simp only [h10, if_false]
        rw [ih f₂ (n / 10) (by omega) (by omega)]

lemma natToDigitsAux_eq (f n : Nat) (h : n < f) : natToDigitsAux f n = natToDigits n :=
  natToDigitsAux_congr f (n + 1) n h (by omega)

lemma natToDigits_eq (n : Nat) :
    natToDigits n = if n < 10 then [digitChar n] else natToDigits (n / 10) ++ [digitChar (n % 10)] := by
  have hstep : natToDigits n =
      if n < 10 then [digitChar n] else natToDigitsAux n (n / 10) ++ [digitChar (n % 10)] := rfl
  by_cases h10 : n < 10
  · simp [hstep, h10]
  · have hd : n / 10 < n := Nat.div_lt_self (by omega) (by omega)
    rw [hstep, if_neg h10, if_neg h10, natToDigitsAux_eq n (n / 10) hd]

lemma natToDigits_ne_nil (n : Nat) : natToDigits n ≠ [] := by
  rw [natToDigits_eq]
  by_cases h10 : n < 10 <;> simp [h10]

lemma natToDigits_all_digits (n : Nat) : ∀ c ∈ natToDigits n, isDig c = true := by
  induction n using Nat.strong_induction_on with
  | _ n ih =>
    rw [natToDigits_eq]
    by_cases h10 : n < 10
    · simp only [h10, if_true, List.mem_singleton]
      rintro c rfl; exact isDig_digitChar n
    · have hd : n / 10 < n := Nat.div_lt_self (by omega) (by omega)
      simp only [h10, if_false, List.mem_append, List.mem_singleton]
      rintro c (hc | rfl)
      · exact ih _ hd c hc
      · exact isDig_digitChar _

lemma natOfDigits_append_single (ds : List Char) (c : Char) :
    natOfDigits (ds ++ [c]) = 10 * natOfDigits ds + digitVal c := by
  induction ds with
  | nil => simp [natOfDigits]
  | cons d ds ih =>
    simp only [List.cons_append, natOfDigits, ih, List.append_eq, List.length_append,
      List.length_cons, List.length_nil]
    ring

lemma natOfDigits_natToDigits (n : Nat) : natOfDigits (natToDigits n) = n := by
  induction n using Nat.strong_induction_on with
  | _ n ih =>
    rw [natToDigits_eq]
    by_cases h10 : n < 10
    · simp [h10, natOfDigits, digitVal_digitChar h10]
    · have hd : n / 10 < n := Nat.div_lt_self (by omega) (by omega)
      simp only [h10, if_false]
      rw [natOfDigits_append_single, ih _ hd, digitVal_digitChar (Nat.mod_lt _ (by omega))]
      omega

lemma digitVal_le {c : Char} (h : isDig c = true) : digitVal c ≤ 9 := by
  rcases isDig_iff.mp h with ⟨h1, h2⟩
  simp [digitVal]; omega

lemma natOfDigits_lt (ds : List Char) (h : ∀ c ∈ ds, isDig c = true) :
    natOfDigits ds < 10 ^ ds.length := by
  induction ds with
  | nil => simp [natOfDigits]
  | cons c cs ih =>
    have hc := digitVal_le (h c (by simp))
    have hcs := ih (fun c hc => h c (by simp [hc]))
    simp only [natOfDigits, List.length_cons, pow_succ]
    nlinarith

lemma natOfDigits_eq_zero (ds : List Char) (h : ∀ c ∈ ds, c = '0') :
    natOfDigits ds = 0 := by
  induction ds with
  | nil => rfl
  | cons c cs ih =>
    have hc := h c (by simp)
    subst hc
    simp [natOfDigits, ih (fun c hc => h c (by simp [hc])), digitVal]

lemma natOfDigits_pos (ds : List Char) (hd : ∀ c ∈ ds, isDig c = true)
    (h : ∃ c ∈ ds, c ≠ '0') : 0 < natOfDigits ds := by
  induction ds with
  | nil => simp at h
  | cons c cs ih =>
    rcases h with ⟨e, he, hne⟩
    simp only [List.mem_cons] at he
    rcases he with rfl | he
    · have h48 : 48 ≤ e.toNat ∧ e.toNat ≤ 57 := isDig_iff.mp (hd e (by simp))
      have : e.toNat ≠ 48 := by
        intro he48
        exact hne (char_eq_of_toNat_eq (d := '0') (by simpa [Char.toNat] using he48))
      have : 1 ≤ digitVal e := by simp [digitVal]; omega
      have : 0 < digitVal e * 10 ^ cs.length := by positivity
      simp only [natOfDigits]; omega
    · have := ih (fun c hc => hd c (by simp [hc])) ⟨e, he, hne⟩
      simp only [natOfDigits]; omega

/-- `math.ceil` of the exact token value agrees with the executable
ceiling used in the embedding of `process_weight_value`. -/
lemma ceil_tokenValue (ip fp : List Char) (h : ∀ c ∈ fp, isDig c = true) :
    ⌈tokenValue ip fp⌉ = (ceilTok ip fp : ℤ) := by
  unfold tokenValue ceilTok
  by_cases hz : fp.any (fun c => c != '0')
  · have hex : ∃ c ∈ fp, c ≠ '0' := by
      rcases List.any_eq_true.mp hz with ⟨c, hc, hne⟩
      exact ⟨c, hc, by simpa using hne⟩
    have hpos : 0 < natOfDigits fp := natOfDigits_pos fp h hex
    have hlt : natOfDigits fp < 10 ^ fp.length := natOfDigits_lt fp h
    have h10 : (0 : ℚ) < (10 : ℚ) ^ fp.length := by positivity
    have hfrac_pos : (0 : ℚ) < (natOfDigits fp : ℚ) / (10 : ℚ) ^ fp.length := by
      apply div_pos _ h10
      exact_mod_cast hpos
    have hfrac_le : (natOfDigits fp : ℚ) / (10 : ℚ) ^ fp.length ≤ 1 := by
      rw [div_le_one h10]
      exact_mod_cast hlt.le
    rw [add_comm, Int.ceil_add_nat]
    have : ⌈(natOfDigits fp : ℚ) / (10 : ℚ) ^ fp.length⌉ = 1 := by
      rw [Int.ceil_eq_iff]
      constructor
      · push_cast; linarith
      · push_cast; linarith
    rw [this, hz]
    simp [add_comm]
  · have hall : ∀ c ∈ fp, c = '0' := by
      intro c hc
      by_contra hne
      exact hz (List.any_eq_true.mpr ⟨c, hc, by simpa using hne⟩)
    rw [natOfDigits_eq_zero fp hall]
    simp [hz]

lemma listIsPre_iff {n h : List Char} : listIsPre n h = true ↔ n <+: h := by
  induction n generalizing h with
  | nil => simp [listIsPre]
  | cons a as ih =>
    cases h with
    | nil => simp [listIsPre]
    | cons b bs => simp [listIsPre, List.cons_prefix_cons, ih]

lemma hasSub_iff {h n : List Char} : hasSub h n = true ↔ n <:+: h := by
  induction h with
  | nil =>
    simp only [hasSub, listIsPre_iff, List.prefix_nil]
    constructor
    · rintro rfl; exact List.infix_refl _
    · intro hi; exact List.eq_nil_of_infix_nil hi
  | cons c rest ih =>
    simp [hasSub, listIsPre_iff, ih, List.infix_cons_iff]

lemma strContains_iff {hay ndl : String} :
    strContains hay ndl = true ↔ ndl.data <:+: hay.data := hasSub_iff

example : process_weight_value "22.93" = "28" := by decide
example : process_weight_value "22.93 lbs" = "28 lbs" := by decide
example : process_weight_value "no number" = "no number" := by decide
example : process_weight_value "22.00 lbs" = "27 lbs" := by decide
example : process_weight_value "  7 kg " = "12 kg" := by decide
example : process_weight_value (process_weight_value "22.93 lbs") = "33 lbs" := by decide

lemma fracPart_digits : ∀ (r : List Char), ∀ x ∈ fracPart r, isDig x = true := by
  intro r x hx
  cases r with
  | nil => simp [fracPart] at hx
  | cons d r2 =>
    simp only [fracPart] at hx
    by_cases hd : (d == '.' && isDig (r2.headD ' ')) = true
    · rw [if_pos hd] at hx
      exact List.mem_takeWhile_imp hx
    · rw [if_neg hd] at hx
      simp at hx

lemma findNumericToken_digits : ∀ (cs ip fp : List Char), findNumericToken cs = some (ip, fp) →
    (∀ c ∈ ip, isDig c = true) ∧ (∀ c ∈ fp, isDig c = true) ∧ ip ≠ [] := by
  intro cs
  induction cs with
  | nil => intro ip fp h; simp [findNumericToken] at h
  | cons c cs ih =>
    intro ip fp h
    by_cases hc : isDig c
    · simp only [findNumericToken, hc, if_true, Option.some.injEq, Prod.mk.injEq] at h
      rcases h with ⟨h1, h2⟩
      subst h1; subst h2
      refine ⟨fun x hx => List.mem_takeWhile_imp hx, fracPart_digits _, ?_⟩
      rw [List.takeWhile_cons_of_pos hc]
      simp
    · simp only [findNumericToken, hc, if_false] at h
      exact ih ip fp h

/-- C1: for every weight string holding a numeric token, the weight
normalizer returns the exact ceiling of the token plus the fixed offset
5, decimally printed, followed — when a trailing non-numeric unit is
present — by one space and the trimmed unit; strings with no numeric
token are returned unchanged (and the function is total, so it never
raises). -/
theorem C1_weight_normalizer :
    (∀ (s : String) (ip fp : List Char), findNumericToken s.data = some (ip, fp) →
      process_weight_value s =
        (⟨natToDigits (⌈tokenValue ip fp⌉ + 5).toNat⟩ : String) ++
          (if stripChars (unitsRun s.data) ≠ [] then
            " " ++ (⟨stripChars (unitsRun s.data)⟩ : String) else "")) ∧
    (∀ s : String, findNumericToken s.data = none → process_weight_value s = s) := by
  constructor
  · intro s ip fp hf
    have hdig := (findNumericToken_digits s.data ip fp hf).2.1
    have hc : (⌈tokenValue ip fp⌉ + 5).toNat = ceilTok ip fp + 5 := by
      rw [ceil_tokenValue ip fp hdig]; omega
    unfold process_weight_value
    simp only [hf]
    rw [hc]
  · intro s h
    unfold process_weight_value
    simp only [h]

/-- Closed instance of `C1_weight_normalizer` at the concrete input
`"22.93 lbs"`. -/
theorem C1_weight_normalizer_witness :
    findNumericToken ("22.93 lbs" : String).data = some (['2', '2'], ['9', '3']) ∧
    process_weight_value "22.93 lbs" =
      (⟨natToDigits (⌈tokenValue ['2', '2'] ['9', '3']⌉ + 5).toNat⟩ : String) ++
        (if stripChars (unitsRun ("22.93 lbs" : String).data) ≠ [] then
          " " ++ (⟨stripChars (unitsRun ("22.93 lbs" : String).data)⟩ : String) else "") :=
  ⟨by decide, C1_weight_normalizer.1 "22.93 lbs" ['2', '2'] ['9', '3'] (by decide)⟩

/-- Result tuple of one fetch, as returned by `SheetRow.scrape_katom`
(`main.py:707`): `(title, description, specs_data, specs_html,
video_links)`.  `specs` keeps the dictionary's insertion order. -/
structure ScrapeResult where
  title : String
  description : String
  specs : List (String × String)
  specsHtml : String
  videoLinks : String
deriving DecidableEq

/-- The "not found" sentinel test used both by the multi-prefix plugin
(`x-multi_prefix_plugin.py:94,103`) and the row loop (`main.py:810`):
`title == "Title not found" or "not found" in title.lower()`. -/
def isNotFoundTitle (t : String) : Bool :=
  t == "Title not found" || strContains (lowerStr t) "not found"

/-- The alternate-prefix loop of
`Plugin.enhanced_scrape_katom` (`x-multi_prefix_plugin.py:97-105`),
instrumented with the list of alternate prefixes actually attempted (in
order).  An empty list returns the original (primary) result —
`x-multi_prefix_plugin.py:108`. -/
def tryAltPrefixes (fetch : String → ScrapeResult) (primary : String) (orig : ScrapeResult) :
    List String → ScrapeResult × List String
  | [] => (orig, [])
  | alt :: rest =>
    if alt = primary then tryAltPrefixes fetch primary orig rest
    else if isNotFoundTitle (fetch alt).title then
      ((tryAltPrefixes fetch primary orig rest).1,
        alt :: (tryAltPrefixes fetch primary orig rest).2)
    else (fetch alt, [alt])

/-- `Plugin.enhanced_scrape_katom` (`x-multi_prefix_plugin.py:88-108`):
fetch with the primary prefix; when the title is the sentinel, try the
configured alternates.  Also returns the alternate prefixes attempted. -/
def enhanced_scrape_katom (fetch : String → ScrapeResult) (altList : List String)
    (primary : String) : ScrapeResult × List String :=
  if isNotFoundTitle (fetch primary).title then tryAltPrefixes fetch primary (fetch primary) altList
  else (fetch primary, [])

lemma tryAltPrefixes_eq (fetch : String → ScrapeResult) (primary : String) (orig : ScrapeResult) :
    ∀ l : List String,
      tryAltPrefixes fetch primary orig l =
        match (l.filter (fun a => a ≠ primary)).find?
            (fun a => !isNotFoundTitle (fetch a).title) with
        | some a =>
          (fetch a, (l.filter (fun a => a ≠ primary)).takeWhile
              (fun a => isNotFoundTitle (fetch a).title) ++ [a])
        | none => (orig, l.filter (fun a => a ≠ primary)) := by
  intro l
  induction l with
  | nil => rfl
  | cons alt rest ih =>
    by_cases he : alt = primary
    · simp only [tryAltPrefixes, if_pos he, List.filter_cons, he]
      simpa using ih
    · by_cases hf : isNotFoundTitle (fetch alt).title
      · simp only [tryAltPrefixes, if_neg he, hf, if_true, List.filter_cons]
        rw [ih]
        have hd : (decide (alt ≠ primary)) = true := by simp [he]
        simp only [hd, if_true, List.find?_cons, List.takeWhile_cons]
        simp only [hf, Bool.not_true, Bool.false_eq_true, if_false, if_true]
        cases hfind : (rest.filter (fun a => a ≠ primary)).find?
            (fun a => !isNotFoundTitle (fetch a).title) <;> simp
      · simp only [tryAltPrefixes, if_neg he, hf, if_false]
        have hd : (decide (alt ≠ primary)) = true := by simp [he]
        simp only [List.filter_cons, hd, if_true, List.find?_cons, List.takeWhile_cons]
        simp only [hf, Bool.not_false, if_true, Bool.false_eq_true, if_false]
        simp

/-- C2 (amended): the retry strategy fetches the primary prefix first;
on a sentinel title it attempts the configured alternates in order,
skipping those equal to the primary, stops at the first non-sentinel
title, and — when every attempt fails — returns the PRIMARY fetch's
(sentinel) result, not the last alternate's. -/
theorem C2_prefix_retry_amended (fetch : String → ScrapeResult) (altList : List String)
    (primary : String) :
    enhanced_scrape_katom fetch altList primary =
      if isNotFoundTitle (fetch primary).title then
        match (altList.filter (fun a => a ≠ primary)).find?
            (fun a => !isNotFoundTitle (fetch a).title) with
        | some a =>
          (fetch a, (altList.filter (fun a => a ≠ primary)).takeWhile
              (fun a => isNotFoundTitle (fetch a).title) ++ [a])
        | none => (fetch primary, altList.filter (fun a => a ≠ primary))
      else (fetch primary, []) := by
  unfold enhanced_scrape_katom
  by_cases hp : isNotFoundTitle (fetch primary).title
  · rw [if_pos hp, if_pos hp, tryAltPrefixes_eq]
  · rw [if_neg hp, if_neg hp]

/-- A concrete fetch stub where both the primary prefix `"605"` and the
alternate `"123"` fail (sentinel titles) but return different
descriptions. -/
def ceFetch : String → ScrapeResult := fun p =>
  if p == "123" then ⟨"Title not found", "alternate description", [], "", ""⟩
  else ⟨"Title not found", "primary description", [], "", ""⟩

/-- C2 counterexample: with primary `"605"` failing and alternate list
`["605", "123"]`, the only attempted alternate is `"123"` and it also
fails; the code then returns the PRIMARY result, not the result of the
last (sentinel) attempt as the claim states. -/
theorem C2_prefix_retry_counterexample :
    isNotFoundTitle (ceFetch "605").title = true ∧
    isNotFoundTitle (ceFetch "123").title = true ∧
    (enhanced_scrape_katom ceFetch ["605", "123"] "605").2 = ["123"] ∧
    (enhanced_scrape_katom ceFetch ["605", "123"] "605").1 ≠ ceFetch "123" ∧
    (enhanced_scrape_katom ceFetch ["605", "123"] "605").1 = ceFetch "605" := by
  decide

/-- One `<tr>` element of a scraped table: the texts of its `<td>`
cells, in order (`main.py:480-481`). -/
structure TableRow where
  cells : List String
deriving DecidableEq

/-- One `<table>` element: its `<tr>` rows in order (`main.py:475`). -/
structure HtmlTable where
  rows : List TableRow
deriving DecidableEq

/-- One element matching `.specs-row, [class*='spec']`: the texts of its
key sub-elements and value sub-elements found by the class-name
selectors (`main.py:507-511`). -/
structure SpecRowElem where
  keyTexts : List String
  valTexts : List String
deriving DecidableEq

/-- One `<dl>` element: the texts of its `<dt>` and `<dd>` children
(`main.py:528-531`). -/
structure DefListElem where
  terms : List String
  defs : List String
deriving DecidableEq

/-- The rendered document as seen by `extract_table_data`: the outcome
of each DOM query it performs, in document order. -/
structure Doc where
  specsTables : List HtmlTable
  genericTables : List HtmlTable
  specRowElems : List SpecRowElem
  defLists : List DefListElem
  textElems : List String
deriving DecidableEq

/-- The fixed opening markup of the synthesized specs table
(`main.py:478,583`). -/
def tableShellOpen : String :=
  "<table class=\"specs-table\" cellspacing=\"0\" cellpadding=\"4\" border=\"1\" style=\"margin-top:10px;border-collapse:collapse;width:auto;\" align=\"left\"><tbody>"

/-- One rendered `<tr>` of the synthesized specs table
(`main.py:495,585`). -/
def specRowHtml (key value : String) : String :=
  "<tr><td style=\"padding:3px 8px;\"><b>" ++ key ++
    "</b></td><td style=\"padding:3px 8px;\">" ++ value ++ "</td></tr>"

/-- The weight normalization guard repeated at every accept site:
`if "weight" in key.lower(): value = self.process_weight_value(value)`. -/
def weightAdjust (key value : String) : String :=
  if strContains (lowerStr key) "weight" then process_weight_value value else value

/-- Python `k in specs_dict` (key membership of the insertion-ordered
dictionary). -/
def dictHas (dict : List (String × String)) (k : String) : Bool :=
  dict.any (fun e => e.1 == k)

/-- Strategy 1, the table scrape (`main.py:480-495`): rows with at
least two cells contribute `key = cells[0].strip()`,
`value = cells[1].strip()`; the dictionary adds lower-cased keys
first-seen-wins for non-empty keys, while the re-rendered markup gets
one row per qualifying table row unconditionally. -/
def tableLoop : List TableRow → List (String × String) → String →
    List (String × String) × String
  | [], dict, html => (dict, html)
  | r :: rest, dict, html =>
    match r.cells with
    | c0 :: c1 :: _ =>
      let key := stripStr c0
      let value := weightAdjust key (stripStr c1)
      let dict' := if key ≠ "" && !dictHas dict (lowerStr key) then
          dict ++ [(lowerStr key, value)] else dict
      tableLoop rest dict' (html ++ specRowHtml key value)
    | _ => tableLoop rest dict html

/-- Shared accept step of the fallback strategies (`main.py:522-524`,
`542-544`, `576-578`): append to `other_specs`, and to the dictionary
when the lower-cased key is new. -/
def acceptPair (st : List (String × String) × List (String × String)) (key value : String) :
    List (String × String) × List (String × String) :=
  (if !dictHas st.1 (lowerStr key) then st.1 ++ [(lowerStr key, value)] else st.1,
    st.2 ++ [(key, value)])

/-- Fallback method 1 (`main.py:507-524`): labeled spec elements; the
first key sub-element and first value sub-element are paired when both
exist and the stripped key is non-empty. -/
def specRowsLoop : List SpecRowElem → List (String × String) × List (String × String) →
    List (String × String) × List (String × String)
  | [], st => st
  | e :: rest, st =>
    match e.keyTexts, e.valTexts with
    | k0 :: _, v0 :: _ =>
      let key := stripStr k0
      let value := weightAdjust key (stripStr v0)
      specRowsLoop rest (if key ≠ "" then acceptPair st key value else st)
    | _, _ => specRowsLoop rest st

/-- Inner pairing loop of fallback method 2 (`main.py:533-544`): terms
and definitions paired positionally up to the shorter list. -/
def dlPairsLoop : List (String × String) → List (String × String) × List (String × String) →
    List (String × String) × List (String × String)
  | [], st => st
  | (t, df) :: rest, st =>
    let key := stripStr t
    let value := weightAdjust key (stripStr df)
    dlPairsLoop rest (if key ≠ "" then acceptPair st key value else st)

/-- Fallback method 2 (`main.py:527-544`): definition lists. -/
def dlLoop : List DefListElem → List (String × String) × List (String × String) →
    List (String × String) × List (String × String)
  | [], st => st
  | dl :: rest, st => dlLoop rest (dlPairsLoop (dl.terms.zip dl.defs) st)

/-- `re.match(r'([^S]+)S\s*(.+)', text)` for a separator character `S`
(`main.py:564`): group 1 is the non-empty run before the first
separator (failing when the separator is absent or first); group 2 is
matched by backtracking `\s*(.+)` on the remainder, `.` not matching
newlines. -/
def reMatchKV (sep : Char) (cs : List Char) : Option (List Char × List Char) :=
  let g1 := cs.takeWhile (fun c => c != sep)
  if g1.length = 0 || g1.length = cs.length then none
  else
    let rest := cs.drop (g1.length + 1)
    let w := rest.takeWhile pySpace
    if w.length < rest.length then
      some (g1, (rest.drop w.length).takeWhile (fun c => c != '\n'))
    else
      match rest.reverse.dropWhile (fun c => c == '\n') with
      | [] => none
      | c :: _ => some (g1, [c])

/-- The fixed allow-list of fallback method 3 (`main.py:552-556`). -/
def commonSpecsList : List String :=
  ["manufacturer", "food type", "frypot style", "heat", "hertz", "nema",
    "number of", "oil capacity", "phase", "product", "type", "rating",
    "special features", "voltage", "warranty", "weight", "dimensions"]

/-- One pattern attempt of fallback method 3 (`main.py:564-579`): on a
regex match, strip both groups, weight-normalize the value, and accept
only when some allow-listed term occurs in the lower-cased key. -/
def tryPattern (sep : Char) (s : String) : Option (String × String) :=
  match reMatchKV sep s.data with
  | none => none
  | some (g1, g2) =>
    let key : String := ⟨stripChars g1⟩
    let value := weightAdjust key (⟨stripChars g2⟩ : String)
    if commonSpecsList.any (fun sp => strContains (lowerStr key) sp) then some (key, value)
    else none

/-- The two patterns tried in order on one text element; the `-` split
runs when the `:` split fails to match or fails the allow-list. -/
def textPair (s : String) : Option (String × String) :=
  match tryPattern ':' s with
  | some kv => some kv
  | none => tryPattern '-' s

/-- Fallback method 3 (`main.py:546-579`): short stripped texts scanned
for `Key: Value` / `Key - Value` patterns. -/
def textLoop : List String → List (String × String) × List (String × String) →
    List (String × String) × List (String × String)
  | [], st => st
  | e :: rest, st =>
    let text := stripStr e
    if text == "" || text.length > 100 then textLoop rest st
    else
      match textPair text with
      | some (k, v) => textLoop rest (acceptPair st k v)
      | none => textLoop rest st

/-- Markup synthesized from the fallback pairs (`main.py:582-586`). -/
def otherSpecsHtml (os : List (String × String)) : String :=
  os.foldl (fun h kv => h ++ specRowHtml kv.1 kv.2) ""

/-- The chained fallback strategies (methods 1-3), threading
`(specs_dict, other_specs)`; each later method runs only when
`other_specs` is still empty. -/
def fallbackSpecs (d : Doc) : List (String × String) × List (String × String) :=
  let st1 := specRowsLoop d.specRowElems ([], [])
  let st2 := if st1.2.isEmpty then dlLoop d.defLists st1 else st1
  if st2.2.isEmpty then textLoop d.textElems st2 else st2

/-- `SheetRow.extract_table_data` (`main.py:454-591`): the specs-styled
tables are preferred, falling back to all generic tables; when a table
exists its rows are scraped and the markup shell is always emitted;
otherwise the fallback methods run, and markup is synthesized only when
they produced at least one pair. -/
def extract_table_data (d : Doc) : List (String × String) × String :=
  match (if d.specsTables.isEmpty then d.genericTables else d.specsTables) with
  | t :: _ =>
    let r := tableLoop t.rows [] ""
    (r.1, tableShellOpen ++ r.2 ++ "</tbody></table>")
  | [] =>
    let st := fallbackSpecs d
    (st.1, if st.2.isEmpty then "" else tableShellOpen ++ otherSpecsHtml st.2 ++ "</tbody></table>")

lemma specRowsLoop_os_grows : ∀ (l : List SpecRowElem) st,
    ∃ ds, (specRowsLoop l st).2 = st.2 ++ ds := by
  intro l
  induction l with
  | nil => intro st; exact ⟨[], by simp [specRowsLoop]⟩
  | cons e rest ih =>
    intro st
    rcases hk : e.keyTexts with _ | ⟨k0, ks⟩
    · simpa [specRowsLoop, hk] using ih st
    · rcases hv : e.valTexts with _ | ⟨v0, vs⟩
      · simpa [specRowsLoop, hk, hv] using ih st
      · by_cases hkey : stripStr k0 ≠ ""
        · rcases ih (acceptPair st (stripStr k0) (weightAdjust (stripStr k0) (stripStr v0))) with
            ⟨ds, hds⟩
          refine ⟨(stripStr k0, weightAdjust (stripStr k0) (stripStr v0)) :: ds, ?_⟩
          simp only [specRowsLoop, hk, hv, if_pos hkey]
          rw [hds, acceptPair]
          simp
        · rcases ih st with ⟨ds, hds⟩
          refine ⟨ds, ?_⟩
          simp only [specRowsLoop, hk, hv, if_neg hkey]
          exact hds

lemma specRowsLoop_eq_of_os_eq : ∀ (l : List SpecRowElem) st,
    (specRowsLoop l st).2 = st.2 → specRowsLoop l st = st := by
  intro l
  induction l with
  | nil => intro st _; rfl
  | cons e rest ih =>
    intro st h
    rcases hk : e.keyTexts with _ | ⟨k0, ks⟩
    · simp only [specRowsLoop, hk] at h ⊢; exact ih st h
    · rcases hv : e.valTexts with _ | ⟨v0, vs⟩
      · simp only [specRowsLoop, hk, hv] at h ⊢; exact ih st h
      · by_cases hkey : stripStr k0 ≠ ""
        · exfalso
          simp only [specRowsLoop, hk, hv, if_pos hkey] at h
          rcases specRowsLoop_os_grows rest
              (acceptPair st (stripStr k0) (weightAdjust (stripStr k0) (stripStr v0))) with
            ⟨ds, hds⟩
          rw [hds, acceptPair] at h
          simp only [List.append_assoc, List.cons_append] at h
          have := congrArg List.length h
          simp [List.length_append] at this
        · simp only [specRowsLoop, hk, hv, if_neg hkey] at h ⊢; exact ih st h

lemma dlPairsLoop_os_grows : ∀ (l : List (String × String)) st,
    ∃ ds, (dlPairsLoop l st).2 = st.2 ++ ds := by
  intro l
  induction l with
  | nil => intro st; exact ⟨[], by simp [dlPairsLoop]⟩
  | cons p rest ih =>
    intro st
    rcases p with ⟨t, df⟩
    by_cases hkey : stripStr t ≠ ""
    · rcases ih (acceptPair st (stripStr t) (weightAdjust (stripStr t) (stripStr df))) with ⟨ds, hds⟩
      refine ⟨(stripStr t, weightAdjust (stripStr t) (stripStr df)) :: ds, ?_⟩
      simp only [dlPairsLoop, if_pos hkey]
      rw [hds, acceptPair]
      simp
    · rcases ih st with ⟨ds, hds⟩
      exact ⟨ds, by simp only [dlPairsLoop, if_neg hkey]; exact hds⟩

lemma dlPairsLoop_eq_of_os_eq : ∀ (l : List (String × String)) st,
    (dlPairsLoop l st).2 = st.2 → dlPairsLoop l st = st := by
  intro l
  induction l with
  | nil => intro st _; rfl
  | cons p rest ih =>
    intro st h
    rcases p with ⟨t, df⟩
    by_cases hkey : stripStr t ≠ ""
    · exfalso
      simp only [dlPairsLoop, if_pos hkey] at h
      rcases dlPairsLoop_os_grows rest
          (acceptPair st (stripStr t) (weightAdjust (stripStr t) (stripStr df))) with ⟨ds, hds⟩
      rw [hds, acceptPair] at h
      simp only [List.append_assoc, List.cons_append] at h
      have := congrArg List.length h
      simp [List.length_append] at this
    · simp only [dlPairsLoop, if_neg hkey] at h ⊢; exact ih st h

lemma dlLoop_os_grows : ∀ (l : List DefListElem) st, ∃ ds, (dlLoop l st).2 = st.2 ++ ds := by
  intro l
  induction l with
  | nil => intro st; exact ⟨[], by simp [dlLoop]⟩
  | cons dl rest ih =>
    intro st
    rcases dlPairsLoop_os_grows (dl.terms.zip dl.defs) st with ⟨ds1, h1⟩
    rcases ih (dlPairsLoop (dl.terms.zip dl.defs) st) with ⟨ds2, h2⟩
    refine ⟨ds1 ++ ds2, ?_⟩
    simp only [dlLoop]
    rw [h2, h1, List.append_assoc]

lemma dlLoop_eq_of_os_eq : ∀ (l : List DefListElem) st,
    (dlLoop l st).2 = st.2 → dlLoop l st = st := by
  intro l
  induction l with
  | nil => intro st _; rfl
  | cons dl rest ih =>
    intro st h
    simp only [dlLoop] at h ⊢
    rcases dlPairsLoop_os_grows (dl.terms.zip dl.defs) st with ⟨ds1, h1⟩
    rcases dlLoop_os_grows rest (dlPairsLoop (dl.terms.zip dl.defs) st) with ⟨ds2, h2⟩
    rw [h2, h1, List.append_assoc] at h
    have hlen := congrArg List.length h
    simp [List.length_append] at hlen
    rcases hlen with ⟨hd1, hd2⟩
    have e1 : dlPairsLoop (dl.terms.zip dl.defs) st = st :=
      dlPairsLoop_eq_of_os_eq _ _ (by rw [h1, hd1]; simp)
    rw [e1] at h2 ⊢
    exact ih st (by rw [h2, hd2]; simp)

lemma textLoop_os_grows : ∀ (l : List String) st, ∃ ds, (textLoop l st).2 = st.2 ++ ds := by
  intro l
  induction l with
  | nil => intro st; exact ⟨[], by simp [textLoop]⟩
  | cons e rest ih =>
    intro st
    by_cases hskip : (stripStr e == "" || (stripStr e).length > 100) = true
    · simpa [textLoop, hskip] using ih st
    · rcases hp : textPair (stripStr e) with _ | ⟨k, v⟩
      · simpa [textLoop, hskip, hp] using ih st
      · rcases ih (acceptPair st k v) with ⟨ds, hds⟩
        refine ⟨(k, v) :: ds, ?_⟩
        simp only [textLoop, hskip, Bool.false_eq_true, if_false, hp]
        rw [hds, acceptPair]
        simp
lemma textLoop_eq_of_os_eq : ∀ (l : List String) st,
    (textLoop l st).2 = st.2 → textLoop l st = st := by
  intro l
  induction l with
  | nil => intro st _; rfl
  | cons e rest ih =>
    intro st h
    by_cases hskip : (stripStr e == "" || (stripStr e).length > 100) = true
    · simp only [textLoop, hskip, if_true] at h ⊢; exact ih st h
    · rcases hp : textPair (stripStr e) with _ | ⟨k, v⟩
      · simp only [textLoop, hskip, Bool.false_eq_true, if_false, hp] at h ⊢; exact ih st h
      · exfalso
        simp only [textLoop, hskip, Bool.false_eq_true, if_false, hp] at h
        rcases textLoop_os_grows rest (acceptPair st k v) with ⟨ds, hds⟩
        rw [hds, acceptPair] at h
        simp only [List.append_assoc, List.cons_append] at h
        have := congrArg List.length h
        simp [List.length_append] at this

lemma fallbackSpecs_of_os_nil (d : Doc) (h : (fallbackSpecs d).2 = []) :
    fallbackSpecs d = ([], []) := by
  rcases hs1 : specRowsLoop d.specRowElems ([], []) with ⟨d1, os1⟩
  by_cases h1 : os1 = []
  · subst h1
    have e1 : specRowsLoop d.specRowElems ([], []) = ([], []) :=
      specRowsLoop_eq_of_os_eq _ _ (by rw [hs1])
    rcases hs2 : dlLoop d.defLists ([], []) with ⟨d2, os2⟩
    by_cases h2 : os2 = []
    · subst h2
      have e2 : dlLoop d.defLists ([], []) = ([], []) :=
        dlLoop_eq_of_os_eq _ _ (by rw [hs2])
      have hfb : fallbackSpecs d = textLoop d.textElems ([], []) := by
        simp only [fallbackSpecs, e1]
        simp [e2]
      rw [hfb] at h ⊢
      exact textLoop_eq_of_os_eq _ _ h
    · have hfb : fallbackSpecs d = (d2, os2) := by
        simp only [fallbackSpecs, e1]
        simp [hs2, List.isEmpty_iff, h2]
      rw [hfb] at h
      exact absurd h h2
  · have hfb : fallbackSpecs d = (d1, os1) := by
      simp only [fallbackSpecs, hs1]
      simp [List.isEmpty_iff, h1]
    rw [hfb] at h
    exact absurd h h1

/-- A document holding one generic table with no rows (and nothing
else): no strategy yields any pair, yet the specs-table markup is the
non-empty table shell. -/
def ceDocTable : Doc := ⟨[], [⟨[]⟩], [], [], []⟩

/-- C4 counterexample: on a document with a (rowless) generic table, no
strategy yields a pair and the returned mapping is empty, but the
returned markup is the table shell, not the empty string. -/
theorem C4_spec_extractor_counterexample :
    (extract_table_data ceDocTable).1 = [] ∧ (extract_table_data ceDocTable).2 ≠ "" := by
  decide

/-- C4 (amended): when the document has no table element at all and no
fallback strategy yields a pair, the extractor returns the empty
mapping and the empty markup string (and this is not an error: the
function is total). -/
theorem C4_spec_extractor_amended (d : Doc) (h1 : d.specsTables = [])
    (h2 : d.genericTables = []) (h3 : (fallbackSpecs d).2 = []) :
    extract_table_data d = ([], "") := by
  have hf := fallbackSpecs_of_os_nil d h3
  unfold extract_table_data
  rw [h1, h2]
  simp [hf]

/-- Closed instance of `C4_spec_extractor_amended` on the fully empty
document. -/
theorem C4_spec_extractor_amended_witness :
    (⟨[], [], [], [], []⟩ : Doc).specsTables = [] ∧
    (⟨[], [], [], [], []⟩ : Doc).genericTables = [] ∧
    (fallbackSpecs ⟨[], [], [], [], []⟩).2 = [] ∧
    extract_table_data ⟨[], [], [], [], []⟩ = ([], "") :=
  ⟨by decide, by decide, by decide,
    C4_spec_extractor_amended ⟨[], [], [], [], []⟩ (by decide) (by decide) (by decide)⟩

/-- Python `s.startswith(pre)`. -/
def strStarts (s pre : String) : Bool := listIsPre pre.data s.data

/-- The rendered page as seen by one `scrape_katom` call: the outcome of
each DOM query it performs.  `productTitle = none` models both the
absence of the `h1.product-name.mb-0` element and the 10-unit
`WebDriverWait` timeout (`main.py:629-639`); `tabContent = none` models
`NoSuchElementException` on the `tab-content` element; an empty string
in `mp4Sources`/`videoTagSources` models a missing `src` attribute. -/
structure Page where
  driverTitle : String
  productTitle : Option String
  tabContent : Option (List String)
  doc : Doc
  mp4Sources : List String
  videoTagSources : List String
  pageSourceMp4s : List String
deriving DecidableEq

/-- Tier a/b accumulation step (`main.py:668-671,678-682`):
`if src and src not in video_links: video_links += f"{src}\n"` —
membership is a SUBSTRING test on the accumulated string. -/
def addLink (acc src : String) : String :=
  if src ≠ "" && !strContains acc src then acc ++ src ++ "\n" else acc

/-- Tier c accumulation step (`main.py:690-692`):
`if match not in video_links: video_links += f"{match}\n"`. -/
def addMatch (acc m : String) : String :=
  if !strContains acc m then acc ++ m ++ "\n" else acc

/-- The three fallback tiers of video-link extraction
(`main.py:664-692`), each later tier attempted only when the
accumulated link string is still empty. -/
def collectVideoLinks (p : Page) : String :=
  let v1 := p.mp4Sources.foldl addLink ""
  let v2 := if v1 == "" then p.videoTagSources.foldl addLink v1 else v1
  if v2 == "" then p.pageSourceMp4s.foldl addMatch v2 else v2

/-- The description paragraphs (`main.py:646-653`): non-empty stripped
paragraph texts, excluding texts whose lower-case form starts with
`*free` or mentions `video`; `Description not found` when the
tab-content element is missing or nothing qualifies. -/
def buildDescription (tc : Option (List String)) : String :=
  match tc with
  | none => "Description not found"
  | some paras =>
    let filtered := paras.filterMap (fun t =>
      if stripStr t ≠ "" && !strStarts (lowerStr t) "*free" && !strContains (lowerStr t) "video"
      then some ("<p>" ++ stripStr t ++ "</p>") else none)
    if filtered.isEmpty then "Description not found" else String.join filtered

/-- `SheetRow.scrape_katom` (`main.py:593-707`), instrumented with the
session bookkeeping: the second component records whether a browser
session was acquired (`webdriver.Chrome` succeeded), the third whether
`driver.quit()` was invoked before returning.  `createFails` models a
session-acquisition failure, `navFails` a page-load failure
(`driver.get` raising); both are caught by the outer handler and reach
the `finally` block, which quits an acquired session.  The 404 check
short-circuits all extraction; a found, non-empty title gates
description, specs and video-link extraction. -/
def scrape_katom (createFails navFails : Bool) (p : Page) : ScrapeResult × Bool × Bool :=
  let init : ScrapeResult := ⟨"Title not found", "Description not found", [], "", ""⟩
  if createFails then (init, false, false)
  else if navFails then (init, true, true)
  else if strContains p.driverTitle "404" || strContains (lowerStr p.driverTitle) "not found" then
    (init, true, true)
  else
    match p.productTitle with
    | none => (init, true, true)
    | some traw =>
      let title := stripStr traw
      if title ≠ "" then
        let specs := extract_table_data p.doc
        (⟨title, buildDescription p.tabContent, specs.1, specs.2, collectVideoLinks p⟩,
          true, true)
      else (⟨title, "Description not found", [], "", ""⟩, true, true)

/-- C5: when the title element is absent or its bounded wait times out,
the fetch keeps the `Title not found` sentinel and performs no further
extraction: the description stays the sentinel and the specs mapping,
specs markup and video links are all empty. -/
theorem C5_title_gates_extraction (createFails navFails : Bool) (p : Page)
    (h : p.productTitle = none) :
    (scrape_katom createFails navFails p).1 =
      ⟨"Title not found", "Description not found", [], "", ""⟩ := by
  cases createFails <;> cases navFails <;> simp [scrape_katom, h]

/-- A concrete page whose title element never appears. -/
def cePageNoTitle : Page :=
  ⟨"Commercial Griddle", none, some ["some paragraph"], ceDocTable,
    ["https://x.com/v.mp4"], [], []⟩

/-- Closed instance of `C5_title_gates_extraction`. -/
theorem C5_title_gates_extraction_witness :
    cePageNoTitle.productTitle = none ∧
    (scrape_katom false false cePageNoTitle).1 =
      ⟨"Title not found", "Description not found", [], "", ""⟩ :=
  ⟨by decide, C5_title_gates_extraction false false cePageNoTitle (by decide)⟩

/-- C7: on every exit path of a fetch — session-acquisition failure,
navigation failure, 404 short-circuit, missing title, or full
extraction — an acquired browser session is released before
`scrape_katom` returns. -/
theorem C7_session_always_released (createFails navFails : Bool) (p : Page)
    (h : (scrape_katom createFails navFails p).2.1 = true) :
    (scrape_katom createFails navFails p).2.2 = true := by
  cases createFails
  case false =>
    cases navFails
    case false =>
      simp only [scrape_katom, Bool.false_eq_true, if_false]
      split
      · rfl
      · cases hp : p.productTitle with
        | none => rfl
        | some traw =>
          by_cases htitle : stripStr traw ≠ ""
          · simp [htitle]
          · simp [htitle]
    case true => rfl
  case true => simp [scrape_katom] at h

/-- Closed instance of `C7_session_always_released` on a successful
acquisition. -/
theorem C7_session_always_released_witness :
    (scrape_katom false false cePageNoTitle).2.1 = true ∧
    (scrape_katom false false cePageNoTitle).2.2 = true :=
  ⟨by decide, C7_session_always_released false false cePageNoTitle (by decide)⟩

/-- Python `str.split('\n')` on a character list. -/
def splitNl : List Char → List (List Char)
  | [] => [[]]
  | c :: cs =>
    if c == '\n' then [] :: splitNl cs
    else
      match splitNl cs with
      | [] => [[c]]
      | l :: ls => (c :: l) :: ls

/-- The collected media-link sequence: the non-empty lines of the
accumulated `video_links` string. -/
def rawLinks (v : String) : List (List Char) :=
  (splitNl v.data).filter (fun l => l ≠ [])

/-- The accumulated link string corresponding to a sequence of
collected links, each followed by the `'\n'` the code appends. -/
def joinLinks : List (List Char) → List Char
  | [] => []
  | l :: ls => l ++ '\n' :: joinLinks ls

/-- `video_list` of the row loop (`main.py:842`):
`[link.strip() for link in video_links.strip().split('\n') if link.strip()]`. -/
def videoList (v : String) : List String :=
  (splitNl (stripStr v).data).filterMap (fun l =>
    if (⟨stripChars l⟩ : String) ≠ "" then some (⟨stripChars l⟩ : String) else none)

/-- The five fixed `Video Link i` columns (`main.py:843-849`): the first
five collected links in order, the remaining columns empty.  The two
Python loops (fill from `video_list[:5]`, then blank the unused
columns) are collapsed into one position-indexed map. -/
def videoCols (v : String) : List String :=
  (List.range 5).map (fun i => ((videoList v).take 5).getD i "")

lemma strData_ext {s t : String} (h : s.data = t.data) : s = t := by
  cases s; cases t
  exact congrArg String.mk (by simpa using h)

lemma str_ne_empty_iff {s : String} : s ≠ "" ↔ s.data ≠ [] := by
  constructor
  · intro h hd; exact h (strData_ext hd)
  · intro h he; subst he; exact h rfl

lemma joinLinks_append (a b : List (List Char)) :
    joinLinks (a ++ b) = joinLinks a ++ joinLinks b := by
  induction a with
  | nil => simp [joinLinks]
  | cons l ls ih => simp [joinLinks, ih]

lemma splitNl_append_line (l rest : List Char) (h : '\n' ∉ l) :
    splitNl (l ++ '\n' :: rest) = l :: splitNl rest := by
  induction l with
  | nil => simp [splitNl]
  | cons c l ih =>
    have hc : (c == '\n') = false := by
      apply beq_eq_false_iff_ne.mpr
      intro he; exact h (by simp [he])
    have ih' := ih (fun hm => h (by simp [hm]))
    simp only [List.cons_append, splitNl, hc, Bool.false_eq_true, if_false, List.append_eq]
    rw [ih']

lemma splitNl_joinLinks (ls : List (List Char)) (h : ∀ l ∈ ls, '\n' ∉ l) :
    splitNl (joinLinks ls) = ls ++ [[]] := by
  induction ls with
  | nil => simp [joinLinks, splitNl]
  | cons l ls ih =>
    simp only [joinLinks]
    rw [splitNl_append_line l _ (h l (by simp)), ih (fun x hx => h x (by simp [hx]))]
    simp

lemma rawLinks_joinLinks (ls : List (List Char)) (h : ∀ l ∈ ls, l ≠ [] ∧ '\n' ∉ l) :
    rawLinks ⟨joinLinks ls⟩ = ls := by
  show (splitNl (joinLinks ls)).filter (fun l => l ≠ []) = ls
  rw [splitNl_joinLinks ls (fun l hl => (h l hl).2), List.filter_append]
  have h1 : ls.filter (fun l => l ≠ []) = ls := by
    rw [List.filter_eq_self]
    intro a ha
    simpa using (h a ha).1
  rw [h1]
  simp

lemma mem_joinLinks_contained {l : List Char} {ls : List (List Char)} (h : l ∈ ls) :
    l <:+: joinLinks ls := by
  induction ls with
  | nil => simp at h
  | cons a ls ih =>
    rcases List.mem_cons.mp h with rfl | hm
    · exact (List.prefix_append l ('\n' :: joinLinks ls)).isInfix
    · have hsfx : joinLinks ls <:+ joinLinks (a :: ls) := by
        show joinLinks ls <:+ a ++ '\n' :: joinLinks ls
        have : a ++ '\n' :: joinLinks ls = (a ++ ['\n']) ++ joinLinks ls := by simp
        rw [this]
        exact List.suffix_append _ _
      exact (ih hm).trans hsfx.isInfix

lemma strContains_nil_needle (acc : String) : strContains acc "" = true := by
  show hasSub acc.data [] = true
  cases acc.data with
  | nil => rfl
  | cons c rest => rfl

lemma addLink_cases (acc src : String) : addLink acc src = acc ∨
    (strContains acc src = false ∧ src ≠ "" ∧ addLink acc src = acc ++ src ++ "\n") := by
  unfold addLink
  by_cases h : (src ≠ "" && !strContains acc src) = true
  · have h1 : src ≠ "" := by
      intro he; subst he; simp at h
    have h2 : strContains acc src = false := by
      rcases Bool.eq_false_or_eq_true (strContains acc src) with hf | ht
      · rw [hf] at h; simp at h
      · exact ht
    exact Or.inr ⟨h2, h1, by rw [if_pos h]⟩
  · exact Or.inl (by rw [if_neg h])

lemma addMatch_cases (acc m : String) : addMatch acc m = acc ∨
    (strContains acc m = false ∧ m ≠ "" ∧ addMatch acc m = acc ++ m ++ "\n") := by
  unfold addMatch
  by_cases h : (!strContains acc m) = true
  · have hm : m ≠ "" := by
      intro he; subst he
      rw [strContains_nil_needle] at h
      simp at h
    exact Or.inr ⟨by simpa using h, hm, by rw [if_pos h]⟩
  · exact Or.inl (by rw [if_neg h])

lemma foldl_links_nodup (step : String → String → String)
    (hstep : ∀ acc src, step acc src = acc ∨
      (strContains acc src = false ∧ src ≠ "" ∧ step acc src = acc ++ src ++ "\n")) :
    ∀ (srcs : List String) (ls : List (List Char)),
      (∀ s ∈ srcs, '\n' ∉ s.data) →
      ls.Nodup → (∀ l ∈ ls, l ≠ [] ∧ '\n' ∉ l) →
      ∃ ls', List.foldl step (⟨joinLinks ls⟩ : String) srcs = ⟨joinLinks ls'⟩ ∧
        ls'.Nodup ∧ (∀ l ∈ ls', l ≠ [] ∧ '\n' ∉ l) := by
  intro srcs
  induction srcs with
  | nil => intro ls _ h1 h2; exact ⟨ls, rfl, h1, h2⟩
  | cons s srcs ih =>
    intro ls hnl h1 h2
    simp only [List.foldl_cons]
    rcases hstep ⟨joinLinks ls⟩ s with hid | ⟨hc, hne, happ⟩
    · rw [hid]
      exact ih ls (fun x hx => hnl x (by simp [hx])) h1 h2
    · rw [happ]
      have hdata : (((⟨joinLinks ls⟩ : String) ++ s ++ "\n")).data = joinLinks (ls ++ [s.data]) := by
        rw [String.data_append, String.data_append, joinLinks_append]
        simp [joinLinks]
      rw [strData_ext hdata]
      have hnotmem : s.data ∉ ls := by
        intro hm
        have : strContains ⟨joinLinks ls⟩ s = true :=
          strContains_iff.mpr (mem_joinLinks_contained hm)
        rw [this] at hc; exact Bool.true_eq_false.mp hc
      apply ih (ls ++ [s.data]) (fun x hx => hnl x (by simp [hx]))
      · rw [List.nodup_append]
        exact ⟨h1, List.nodup_singleton _, by simpa using hnotmem⟩
      · intro l hl
        rcases List.mem_append.mp hl with hl | hl
        · exact h2 l hl
        · rcases List.mem_singleton.mp hl with rfl
          exact ⟨str_ne_empty_iff.mp hne, hnl s (by simp)⟩

lemma rawLinks_empty : rawLinks "" = [] := by decide

lemma collectVideoLinks_nodup (p : Page)
    (h1 : ∀ s ∈ p.mp4Sources, '\n' ∉ s.data)
    (h2 : ∀ s ∈ p.videoTagSources, '\n' ∉ s.data)
    (h3 : ∀ s ∈ p.pageSourceMp4s, '\n' ∉ s.data) :
    (rawLinks (collectVideoLinks p)).Nodup := by
  have base : ∀ (step : String → String → String)
      (hstep : ∀ acc src, step acc src = acc ∨
        (strContains acc src = false ∧ src ≠ "" ∧ step acc src = acc ++ src ++ "\n"))
      (srcs : List String), (∀ s ∈ srcs, '\n' ∉ s.data) →
      (rawLinks (List.foldl step "" srcs)).Nodup := by
    intro step hstep srcs hnl
    obtain ⟨ls', he, hn, hc⟩ :=
      foldl_links_nodup step hstep srcs [] hnl List.nodup_nil (by simp)
    have : List.foldl step "" srcs = (⟨joinLinks ls'⟩ : String) := he
    rw [this, rawLinks_joinLinks ls' hc]
    exact hn
  simp only [collectVideoLinks]
  by_cases hv1 : (p.mp4Sources.foldl addLink "" == "") = true
  · have e1 : p.mp4Sources.foldl addLink "" = "" := eq_of_beq hv1
    rw [e1]
    simp only [beq_self_eq_true, if_true]
    by_cases hv2 : (p.videoTagSources.foldl addLink "" == "") = true
    · have e2 : p.videoTagSources.foldl addLink "" = "" := eq_of_beq hv2
      rw [e2]
      simp only [beq_self_eq_true, if_true]
      exact base addMatch addMatch_cases p.pageSourceMp4s h3
    · rw [if_neg hv2]
      exact base addLink addLink_cases p.videoTagSources h2
  · rw [if_neg hv1, if_neg hv1]
    exact base addLink addLink_cases p.mp4Sources h1

lemma range_map_getD {α : Type} (d : α) : ∀ (n : Nat) (l : List α), l.length ≤ n →
    (List.range n).map (fun i => l.getD i d) = l ++ List.replicate (n - l.length) d := by
  intro n
  induction n with
  | zero =>
    intro l hl
    have : l = [] := List.length_eq_zero.mp (by omega)
    subst this; simp
  | succ m ih =>
    intro l hl
    cases l with
    | nil =>
      simp only [List.nil_append, Nat.sub_zero, List.length_nil]
      have : (fun i => ([] : List α).getD i d) = fun _ => d := by
        funext i; rfl
      rw [this, List.map_const', List.length_range]
    | cons a l' =>
      rw [List.range_succ_eq_map]
      simp only [List.map_cons, List.map_map]
      have hc : ((fun i => (a :: l').getD i d) ∘ Nat.succ) = fun i => l'.getD i d := by
        funext i; rfl
      rw [hc, ih l' (by simpa using hl)]
      simp only [List.getD_cons_zero, List.cons_append, List.length_cons, List.cons.injEq,
        true_and]
      have hcount : m + 1 - (l'.length + 1) = m - l'.length := by omega
      rw [hcount]

lemma videoCols_take_replicate (v : String) :
    videoCols v = (videoList v).take 5 ++ List.replicate (5 - ((videoList v).take 5).length) "" := by
  unfold videoCols
  apply range_map_getD
  rw [List.length_take]
  exact Nat.min_le_left 5 _

/-- A page where the second media source is a distinct URL that occurs
as a substring of the first collected link. -/
def cePageLinks : Page :=
  ⟨"Commercial Griddle", some "Product X", none, ⟨[], [], [], [], []⟩,
    ["https://x.com/a/b.mp4", "b.mp4"], [], []⟩

/-- C6 counterexample: the first tier's dedup is a substring test on
the accumulated string, so the distinct URL `b.mp4` is DROPPED because
it occurs inside the previously collected
`https://x.com/a/b.mp4` — refuting "two distinct URLs are both
retained; only exact duplicates are dropped". -/
theorem C6_media_links_counterexample :
    cePageLinks.mp4Sources = ["https://x.com/a/b.mp4", "b.mp4"] ∧
    "https://x.com/a/b.mp4" ≠ "b.mp4" ∧
    (scrape_katom false false cePageLinks).1.videoLinks = "https://x.com/a/b.mp4\n" ∧
    rawLinks (scrape_katom false false cePageLinks).1.videoLinks =
      [("https://x.com/a/b.mp4" : String).data] := by
  refine ⟨rfl, by decide, by decide, by decide⟩

/-- C6 (amended): the collected media-link sequence of a fetch holds no
duplicate URL (whenever the source attributes contain no newline, which
the accumulated newline-separated string requires to be meaningful);
each tier drops a candidate exactly when it occurs as a SUBSTRING of
the links accumulated so far, so exact duplicates are always dropped
but a distinct URL contained in an earlier one is dropped too; and at
most 5 links are mapped into the fixed media-link columns, surplus
dropped and deficit left empty. -/
theorem C6_media_links_amended (createFails navFails : Bool) (p : Page)
    (h1 : ∀ s ∈ p.mp4Sources, '\n' ∉ s.data)
    (h2 : ∀ s ∈ p.videoTagSources, '\n' ∉ s.data)
    (h3 : ∀ s ∈ p.pageSourceMp4s, '\n' ∉ s.data) :
    (rawLinks (scrape_katom createFails navFails p).1.videoLinks).Nodup ∧
    videoCols (scrape_katom createFails navFails p).1.videoLinks =
      (videoList (scrape_katom createFails navFails p).1.videoLinks).take 5 ++
        List.replicate
          (5 - ((videoList (scrape_katom createFails navFails p).1.videoLinks).take 5).length)
          "" ∧
    (videoCols (scrape_katom createFails navFails p).1.videoLinks).length = 5 := by
  refine ⟨?_, videoCols_take_replicate _, by simp [videoCols]⟩
  have hnil : (rawLinks "").Nodup := by rw [rawLinks_empty]; exact List.nodup_nil
  cases createFails
  case false =>
    cases navFails
    case false =>
      simp only [scrape_katom, Bool.false_eq_true, if_false]
      split
      · exact hnil
      · cases hp : p.productTitle with
        | none => exact hnil
        | some traw =>
          by_cases htitle : stripStr traw ≠ ""
          · simpa [htitle] using collectVideoLinks_nodup p h1 h2 h3
          · simpa [htitle] using hnil
    case true => exact hnil
  case true => exact hnil

/-- Closed instance of `C6_media_links_amended` on `cePageLinks`. -/
theorem C6_media_links_amended_witness :
    (∀ s ∈ cePageLinks.mp4Sources, '\n' ∉ s.data) ∧
    (rawLinks (scrape_katom false false cePageLinks).1.videoLinks).Nodup :=
  ⟨by decide,
    (C6_media_links_amended false false cePageLinks (by decide) (by decide) (by decide)).1⟩

/-- `SheetRow.on_processing_error` (`main.py:274-282`): the inline
status text set for the row,
`f"Error: {error_message[:40]}..."` — the FIRST 40 characters of the
message. -/
def on_processing_error (error_message : String) : String :=
  "Error: " ++ (⟨error_message.data.take 40⟩ : String) ++ "..."

/-- The last `n` characters of a string (the claim's "last 40
characters", i.e. Python `s[-n:]`). -/
def lastNChars (s : String) (n : Nat) : String := ⟨(s.data.reverse.take n).reverse⟩

/-- C9 counterexample: for the 41-character message of 40 `a`s followed
by `B`, the inline status text does NOT contain the last 40 characters
of the message (the `B` never appears): the code shows the first 40. -/
theorem C9_error_status_counterexample :
    (⟨List.replicate 40 'a' ++ ['B']⟩ : String).length = 41 ∧
    strContains (on_processing_error ⟨List.replicate 40 'a' ++ ['B']⟩)
      (lastNChars (⟨List.replicate 40 'a' ++ ['B']⟩ : String) 40) = false := by
  decide

/-- C9 (amended): for every error message delivered to the error
handler, the inline status text is `Error: ` followed by the FIRST 40
characters of the message and `...`; in particular it always contains
the first 40 characters as a substring (alongside the full-detail
notification dialog). -/
theorem C9_error_status_amended (msg : String) :
    on_processing_error msg = "Error: " ++ (⟨msg.data.take 40⟩ : String) ++ "..." ∧
    strContains (on_processing_error msg) ⟨msg.data.take 40⟩ = true := by
  refine ⟨rfl, ?_⟩
  rw [strContains_iff]
  show msg.data.take 40 <:+: (on_processing_error msg).data
  unfold on_processing_error
  rw [String.data_append, String.data_append]
  exact List.infix_append _ _ _

/-- `RowJobState` outcomes of one `process_file` run, as set by the
signal handlers: `finished` ↦ Completed (`main.py:259-272`), explicit
stop ↦ Stopped (`main.py:409-417`), `error` ↦ Error
(`main.py:274-282`). -/
inductive RunState where
  | Completed
  | Stopped
  | Error
deriving DecidableEq

/-- One output record (`main.py:819-849`): the base columns, one column
per configured spec field (title-cased), and the five fixed video-link
columns. -/
structure OutputRow where
  mfrModel : String
  title : String
  description : String
  specCols : List (String × String)
  videoCols : List String
deriving DecidableEq

/-- Observable effects of one run, in emission order. -/
inductive Event where
  | saved (rows : List OutputRow)
  | progress (cur total : Nat)
  | statusMsg (msg : String)
  | errorMsg (msg : String)
  | finished
deriving DecidableEq

/-- Python `str.title()` (ASCII): an alphabetic character is
upper-cased when the previous character is not alphabetic, lower-cased
otherwise. -/
def pyTitleAux : List Char → Bool → List Char
  | [], _ => []
  | c :: cs, prevAlpha =>
    (if c.isAlpha then (if prevAlpha then c.toLower else c.toUpper) else c) ::
      pyTitleAux cs c.isAlpha

/-- Python `str.title()`, used for the spec-field column names
(`main.py:757,827,838`). -/
def pyTitle (s : String) : String := ⟨pyTitleAux s.data false⟩

/-- `row_data[name] = v` on the fixed column set. -/
def setCol (cols : List (String × String)) (name v : String) : List (String × String) :=
  cols.map (fun e => if e.1 == name then (e.1, v) else e)

/-- The spec-column mapping of one matched row (`main.py:826-839`):
every column starts empty; for each spec key/value in insertion order,
weight-bearing values are normalized (again), and the value is placed
in the first configured field whose lower-cased name equals or CONTAINS
the key; later spec keys matching the same field overwrite. -/
def buildSpecCols (fields : List String) (specs : List (String × String)) :
    List (String × String) :=
  specs.foldl (fun cols kv =>
    let value := if strContains (lowerStr kv.1) "weight" then process_weight_value kv.2 else kv.2
    match fields.find? (fun f =>
        lowerStr kv.1 == lowerStr f || strContains (lowerStr f) (lowerStr kv.1)) with
    | some f => setCol cols (pyTitle f) value
    | none => cols)
    (fields.map (fun f => (pyTitle f, "")))

/-- One matched output row (`main.py:810-849`): the description is the
wrapped base description plus a Specifications section only when the
specs markup is non-empty. -/
def buildRow (fields : List String) (model : String) (r : ScrapeResult) : OutputRow :=
  { mfrModel := model
    title := r.title
    description :=
      "<div style=\"text-align: justify;\">" ++ r.description ++ "</div>" ++
        (if r.specsHtml ≠ "" then
          "<h3 style=\"margin-top: 15px;\">Specifications</h3>" ++ r.specsHtml else "")
    specCols := buildSpecCols fields r.specs
    videoCols := videoCols r.videoLinks }

/-- `self.running` at the start of iteration `i`: `cancelAt = some k`
models a stop request taking effect at iteration `k`. -/
def runningAt (cancelAt : Option Nat) (i : Nat) : Bool :=
  match cancelAt with
  | none => true
  | some k => decide (i < k)

/-- The per-record loop of `process_file` (`main.py:793-865`): break on
cancellation, skip records with an empty identifier (`continue` —
emitting NO progress for them), otherwise emit a status notification,
fetch, append-and-save the row only for non-sentinel titles, and emit
`progress (i+1, total)`. -/
def processLoop (fetch : String → ScrapeResult) (fields : List String) (cancelAt : Option Nat)
    (total : Nat) : List String → Nat → List OutputRow → List Event × List OutputRow
  | [], _, rows => ([], rows)
  | m :: rest, i, rows =>
    if !runningAt cancelAt i then ([], rows)
    else if m = "" then processLoop fetch fields cancelAt total rest (i + 1) rows
    else
      let r := fetch m
      let step :=
        if r.title ≠ "Title not found" && !strContains (lowerStr r.title) "not found" then
          ([Event.statusMsg ("Processing model: " ++ m),
            Event.saved (rows ++ [buildRow fields m r])], rows ++ [buildRow fields m r])
        else ([Event.statusMsg ("Processing model: " ++ m)], rows)
      let next := processLoop fetch fields cancelAt total rest (i + 1) step.2
      (step.1 ++ [Event.progress (i + 1) total] ++ next.1, next.2)

/-- `SheetRow.process_file` (`main.py:709-880`): the guard failures
(no file, hook abort, missing model column) emit an error; the empty
header-only artifact is persisted BEFORE the zero-record check, which
itself emits an error; otherwise the loop runs and, unless a stop was
requested, the run finishes and reaches `Completed`. -/
def process_file (fileSelected hookAborts hasModelCol : Bool) (models : List String)
    (fetch : String → ScrapeResult) (fields : List String) (cancelAt : Option Nat) :
    List Event × RunState × List OutputRow :=
  if !fileSelected then ([Event.errorMsg "No file selected"], RunState.Error, [])
  else if hookAborts then ([Event.errorMsg "Processing aborted by plugin"], RunState.Error, [])
  else if !hasModelCol then
    ([Event.errorMsg "Missing 'Mfr Model' column in file"], RunState.Error, [])
  else if models.length = 0 then
    ([Event.saved [], Event.errorMsg "File contains no data rows"], RunState.Error, [])
  else
    let lp := processLoop fetch fields cancelAt models.length models 0 []
    match cancelAt with
    | none =>
      ([Event.saved [], Event.progress 0 models.length] ++ lp.1 ++ [Event.finished],
        RunState.Completed, lp.2)
    | some _ =>
      ([Event.saved [], Event.progress 0 models.length] ++ lp.1, RunState.Stopped, lp.2)

/-- C3 counterexample: a run over an empty input table emits the
`File contains no data rows` error and ends in the `Error` state, NOT
`Completed` as the claim states (the header-only artifact was persisted
just before). -/
theorem C3_empty_input_counterexample :
    (process_file true false true [] (fun _ => ⟨"Title not found", "", [], "", ""⟩) [] none).2.1 =
      RunState.Error ∧
    (process_file true false true [] (fun _ => ⟨"Title not found", "", [], "", ""⟩) [] none).2.1 ≠
      RunState.Completed ∧
    Event.errorMsg "File contains no data rows" ∈
      (process_file true false true [] (fun _ => ⟨"Title not found", "", [], "", ""⟩) [] none).1 := by
  decide

/-- C3 (amended): for an input table with zero data records, a started
run persists the header-only artifact and then terminates immediately
in the ERROR state with the message `File contains no data rows`; no
data row is ever written. -/
theorem C3_empty_input_amended (fetch : String → ScrapeResult) (fields : List String)
    (cancelAt : Option Nat) :
    process_file true false true [] fetch fields cancelAt =
      ([Event.saved [], Event.errorMsg "File contains no data rows"], RunState.Error, []) := rfl

lemma processLoop_progress_mem (fetch : String → ScrapeResult) (fields : List String)
    (total : Nat) :
    ∀ (models : List String) (i0 : Nat) (rows : List OutputRow) (j : Nat),
      j < models.length → models.getD j "" ≠ "" →
      Event.progress (i0 + j + 1) total ∈
        (processLoop fetch fields none total models i0 rows).1 := by
  intro models
  induction models with
  | nil => intro i0 rows j hj _; simp at hj
  | cons m rest ih =>
    intro i0 rows j hj hm
    have hrun : (!runningAt none i0) = false := rfl
    cases j with
    | zero =>
      have hm' : m ≠ "" := by simpa using hm
      simp only [processLoop, hrun, Bool.false_eq_true, if_false, if_neg hm']
      split <;> simp
    | succ j' =>
      have hm2 : rest.getD j' "" ≠ "" := by simpa using hm
      have hj2 : j' < rest.length := by simpa using hj
      have harith : i0 + (j' + 1) + 1 = (i0 + 1) + j' + 1 := by omega
      rw [harith]
      by_cases hme : m = ""
      · simp only [processLoop, hrun, Bool.false_eq_true, if_false, if_pos hme]
        exact ih (i0 + 1) rows j' hj2 hm2
      · simp only [processLoop, hrun, Bool.false_eq_true, if_false, if_neg hme]
        split
        · simp only [List.mem_append]
          exact Or.inr (ih (i0 + 1) _ j' hj2 hm2)
        · simp only [List.mem_append]
          exact Or.inr (ih (i0 + 1) _ j' hj2 hm2)

/-- C8 counterexample: a run over the single record with an empty
identifier completes, but NO `(1, 1)` progress notification is ever
emitted — the `continue` for empty identifiers skips the progress
update. -/
theorem C8_progress_counterexample :
    (process_file true false true [""]
        (fun _ => ⟨"Title not found", "Description not found", [], "", ""⟩) [] none).2.1 =
      RunState.Completed ∧
    Event.progress 1 1 ∉
      (process_file true false true [""]
        (fun _ => ⟨"Title not found", "Description not found", [], "", ""⟩) [] none).1 := by
  decide

/-- C8 (amended): during an uncancelled run, a progress notification
`(i+1, total)` is emitted for every record with a NON-EMPTY identifier
— matched and sentinel records alike; records skipped for an empty
identifier emit no progress notification. -/
theorem C8_progress_amended (models : List String) (fetch : String → ScrapeResult)
    (fields : List String) (j : Nat) (hj : j < models.length)
    (hm : models.getD j "" ≠ "") :
    Event.progress (j + 1) models.length ∈
      (process_file true false true models fetch fields none).1 := by
  have htotal : ¬ models.length = 0 := by omega
  have hmem := processLoop_progress_mem fetch fields models.length models 0 [] j hj hm
  simp only [Nat.zero_add] at hmem
  simp only [process_file, Bool.not_true, Bool.false_eq_true, if_false, if_neg htotal]
  simp [hmem]

/-- Closed instance of `C8_progress_amended` on a one-record input. -/
theorem C8_progress_amended_witness :
    0 < (["ABC123"] : List String).length ∧ (["ABC123"] : List String).getD 0 "" ≠ "" ∧
    Event.progress 1 1 ∈
      (process_file true false true ["ABC123"]
        (fun _ => ⟨"Title not found", "Description not found", [], "", ""⟩) [] none).1 :=
  ⟨by decide, by decide,
    C8_progress_amended ["ABC123"]
      (fun _ => ⟨"Title not found", "Description not found", [], "", ""⟩) [] 0
      (by decide) (by decide)⟩

lemma takeWhile_app (p : Char → Bool) : ∀ (l r : List Char), (∀ x ∈ l, p x = true) →
    List.takeWhile p (l ++ r) = l ++ List.takeWhile p r := by
  intro l r h
  induction l with
  | nil => simp
  | cons c cs ih =>
    simp only [List.cons_append, List.takeWhile_cons, h c (by simp), if_true]
    rw [ih (fun x hx => h x (by simp [hx]))]

lemma dropWhile_app (p : Char → Bool) : ∀ (l r : List Char), (∀ x ∈ l, p x = true) →
    List.dropWhile p (l ++ r) = List.dropWhile p r := by
  intro l r h
  induction l with
  | nil => simp
  | cons c cs ih =>
    simp only [List.cons_append, List.dropWhile_cons, h c (by simp), if_true]
    exact ih (fun x hx => h x (by simp [hx]))

lemma dropWhile_head_false (p : Char → Bool) : ∀ (l : List Char) (c : Char),
    (List.dropWhile p l).head? = some c → p c = false := by
  intro l
  induction l with
  | nil => intro c h; simp at h
  | cons a as ih =>
    intro c h
    by_cases ha : p a = true
    · rw [List.dropWhile_cons, if_pos ha] at h
      exact ih c h
    · rw [List.dropWhile_cons, if_neg ha] at h
      have hac : a = c := by simpa using h
      rcases Bool.eq_false_or_eq_true (p c) with ht | hf
      · rw [← hac] at ht; exact absurd ht ha
      · exact hf

lemma dropWhile_idem (p : Char → Bool) (l : List Char) :
    List.dropWhile p (List.dropWhile p l) = List.dropWhile p l := by
  cases hd : List.dropWhile p l with
  | nil => simp
  | cons c cs =>
    have hc : p c = false := dropWhile_head_false p l c (by simp [hd])
    rw [List.dropWhile_cons, if_neg (by simp [hc])]

lemma dropWhile_eq_self_of_head (p : Char → Bool) (l : List Char)
    (h : ∀ c, l.head? = some c → p c = false) : List.dropWhile p l = l := by
  cases l with
  | nil => rfl
  | cons c cs =>
    rw [List.dropWhile_cons, if_neg (by simp [h c rfl])]

lemma dropWhile_suffix (p : Char → Bool) : ∀ l : List Char, List.dropWhile p l <:+ l := by
  intro l
  induction l with
  | nil => simp
  | cons c cs ih =>
    by_cases hc : p c = true
    · rw [List.dropWhile_cons, if_pos hc]
      exact ih.trans (List.suffix_cons c cs)
    · rw [List.dropWhile_cons, if_neg hc]

lemma suffix_reverse_head (s l : List Char) (h : s <:+ l) (hs : s ≠ []) :
    s.reverse.head? = l.reverse.head? := by
  obtain ⟨t, rfl⟩ := h
  rw [List.reverse_append]
  cases hrev : s.reverse with
  | nil => exact absurd (by simpa using hrev) hs
  | cons c cs => simp [hrev]

lemma stripChars_head_false (l : List Char) (c : Char)
    (h : (stripChars l).head? = some c) : pySpace c = false := by
  unfold stripChars at h
  set A := l.dropWhile pySpace with hA
  set C := A.reverse.dropWhile pySpace with hC
  have hCne : C ≠ [] := by
    intro he
    rw [he] at h
    simp at h
  have h1 : C.reverse.head? = A.reverse.reverse.head? :=
    suffix_reverse_head C A.reverse (hC ▸ dropWhile_suffix pySpace A.reverse) hCne
  rw [List.reverse_reverse] at h1
  rw [h1] at h
  exact dropWhile_head_false pySpace l c h

lemma stripChars_idem (l : List Char) : stripChars (stripChars l) = stripChars l := by
  have h1 : List.dropWhile pySpace (stripChars l) = stripChars l :=
    dropWhile_eq_self_of_head pySpace (stripChars l) (fun c hc => stripChars_head_false l c hc)
  show ((List.dropWhile pySpace (stripChars l)).reverse.dropWhile pySpace).reverse = stripChars l
  rw [h1]
  show ((stripChars l).reverse.dropWhile pySpace).reverse = stripChars l
  unfold stripChars
  rw [List.reverse_reverse, dropWhile_idem]

lemma stripChars_cons_space (c : Char) (l : List Char) (hc : pySpace c = true) :
    stripChars (c :: l) = stripChars l := by
  unfold stripChars
  rw [List.dropWhile_cons, if_pos hc]

lemma mem_dropWhile (p : Char → Bool) : ∀ (l : List Char) (x : Char),
    x ∈ List.dropWhile p l → x ∈ l := by
  intro l x hx
  exact (dropWhile_suffix p l).subset hx

lemma mem_stripChars (l : List Char) (x : Char) (hx : x ∈ stripChars l) : x ∈ l := by
  unfold stripChars at hx
  rw [List.mem_reverse] at hx
  have := mem_dropWhile pySpace _ x hx
  rw [List.mem_reverse] at this
  exact mem_dropWhile pySpace l x this

lemma mem_unitsRun (cs : List Char) (x : Char) (hx : x ∈ unitsRun cs) :
    (!isDig x && x != '.') = true := by
  unfold unitsRun at hx
  rw [List.mem_reverse] at hx
  exact List.mem_takeWhile_imp (p := fun c => !isDig c && c != '.') hx

lemma findNumericToken_digits_prefix (ds tail : List Char) (hne : ds ≠ [])
    (hd : ∀ c ∈ ds, isDig c = true)
    (ht : tail = [] ∨ ∃ c t, tail = c :: t ∧ isDig c = false ∧ c ≠ '.') :
    findNumericToken (ds ++ tail) = some (ds, []) := by
  have htake : List.takeWhile isDig tail = [] := by
    rcases ht with rfl | ⟨c, t, rfl, hc, _⟩
    · rfl
    · rw [List.takeWhile_cons, if_neg (by simp [hc])]
  have hdrop : List.dropWhile isDig tail = tail := by
    rcases ht with rfl | ⟨c, t, rfl, hc, _⟩
    · rfl
    · rw [List.dropWhile_cons, if_neg (by simp [hc])]
  cases ds with
  | nil => exact absurd rfl hne
  | cons c cs =>
    have hc : isDig c = true := hd c (by simp)
    rw [List.cons_append]
    simp only [findNumericToken, hc, if_true]
    have h1 : List.takeWhile isDig (c :: (cs ++ tail)) = c :: cs := by
      rw [← List.cons_append, takeWhile_app isDig (c :: cs) tail hd, htake, List.append_nil]
    have h2 : List.dropWhile isDig (c :: (cs ++ tail)) = tail := by
      rw [← List.cons_append, dropWhile_app isDig (c :: cs) tail hd, hdrop]
    rw [h1, h2]
    rcases ht with rfl | ⟨c', t, rfl, hc', hdot⟩
    · rfl
    · have hb : (c' == '.') = false := beq_eq_false_iff_ne.mpr hdot
      simp [fracPart, hb]

lemma unitsRun_append_digits (ds tail : List Char) (hd : ∀ c ∈ ds, isDig c = true)
    (ht : ∀ c ∈ tail, (!isDig c && c != '.') = true) :
    unitsRun (ds ++ tail) = tail := by
  unfold unitsRun
  rw [List.reverse_append]
  rw [takeWhile_app _ tail.reverse ds.reverse (fun x hx => ht x (List.mem_reverse.mp hx))]
  have hds : List.takeWhile (fun c => !isDig c && c != '.') ds.reverse = [] := by
    cases hrev : ds.reverse with
    | nil => rfl
    | cons c cs =>
      have hcd : isDig c = true := hd c (List.mem_reverse.mp (by simp [hrev]))
      rw [List.takeWhile_cons, if_neg (by simp [hcd])]
  rw [hds, List.append_nil, List.reverse_reverse]

lemma pwv_step (s : String) (ip fp : List Char) (hf : findNumericToken s.data = some (ip, fp)) :
    process_weight_value s =
      (⟨natToDigits (ceilTok ip fp + 5)⟩ : String) ++
        (if stripChars (unitsRun s.data) ≠ [] then
          " " ++ (⟨stripChars (unitsRun s.data)⟩ : String) else "") := by
  unfold process_weight_value
  simp only [hf]

lemma pwv_double (s : String) (ip fp : List Char)
    (hf : findNumericToken s.data = some (ip, fp)) :
    process_weight_value (process_weight_value s) =
      (⟨natToDigits (ceilTok ip fp + 10)⟩ : String) ++
        (if stripChars (unitsRun s.data) ≠ [] then
          " " ++ (⟨stripChars (unitsRun s.data)⟩ : String) else "") := by
  have h1 := pwv_step s ip fp hf
  have hMdig := natToDigits_all_digits (ceilTok ip fp + 5)
  have hMne := natToDigits_ne_nil (ceilTok ip fp + 5)
  have hceil2 : ceilTok (natToDigits (ceilTok ip fp + 5)) [] = ceilTok ip fp + 5 := by
    simp [ceilTok, natOfDigits_natToDigits]
  have harith : ceilTok ip fp + 5 + 5 = ceilTok ip fp + 10 := by omega
  by_cases hu : stripChars (unitsRun s.data) = []
  · have hres : process_weight_value s = (⟨natToDigits (ceilTok ip fp + 5)⟩ : String) := by
      rw [h1, hu]
      simp
    have hft : findNumericToken (⟨natToDigits (ceilTok ip fp + 5)⟩ : String).data =
        some (natToDigits (ceilTok ip fp + 5), []) := by
      have := findNumericToken_digits_prefix (natToDigits (ceilTok ip fp + 5)) []
        hMne hMdig (Or.inl rfl)
      rwa [List.append_nil] at this
    have hur : unitsRun (⟨natToDigits (ceilTok ip fp + 5)⟩ : String).data = [] := by
      have := unitsRun_append_digits (natToDigits (ceilTok ip fp + 5)) [] hMdig (by simp)
      rwa [List.append_nil] at this
    rw [hres, pwv_step _ _ _ hft, hur, hu, hceil2, harith]
    simp [stripChars]
  · have hupred : ∀ c ∈ stripChars (unitsRun s.data), (!isDig c && c != '.') = true :=
      fun c hc => mem_unitsRun s.data c (mem_stripChars _ c hc)
    have htailpred : ∀ c ∈ ' ' :: stripChars (unitsRun s.data), (!isDig c && c != '.') = true := by
      intro c hc
      rcases List.mem_cons.mp hc with rfl | hm
      · decide
      · exact hupred c hm
    have hdata : (process_weight_value s).data =
        natToDigits (ceilTok ip fp + 5) ++ (' ' :: stripChars (unitsRun s.data)) := by
      rw [h1, if_pos hu]
      rw [String.data_append, String.data_append]
      rfl
    have hft : findNumericToken (process_weight_value s).data =
        some (natToDigits (ceilTok ip fp + 5), []) := by
      rw [hdata]
      refine findNumericToken_digits_prefix _ _ hMne hMdig (Or.inr ⟨' ', _, rfl, ?_, ?_⟩)
      · decide
      · decide
    have hur : unitsRun (process_weight_value s).data =
        ' ' :: stripChars (unitsRun s.data) := by
      rw [hdata]
      exact unitsRun_append_digits _ _ hMdig htailpred
    rw [pwv_step _ _ _ hft, hur, stripChars_cons_space ' ' _ (by decide), stripChars_idem,
      hceil2, harith]

/-- Every weight-keyed entry of a specs dictionary was produced by the
Value Normalizer: its value is `process_weight_value` of some raw
scraped value. -/
def weightNormalized (dict : List (String × String)) : Prop :=
  ∀ kv ∈ dict, strContains kv.1 "weight" = true → ∃ raw, kv.2 = process_weight_value raw

lemma weightAdjust_normalized (key v0 : String)
    (h : strContains (lowerStr key) "weight" = true) :
    weightAdjust key v0 = process_weight_value v0 := by
  unfold weightAdjust
  rw [if_pos h]

lemma weightNormalized_nil : weightNormalized [] := by
  intro kv hkv
  simp at hkv

lemma tableLoop_weight : ∀ (rows : List TableRow) (dict : List (String × String)) (html : String),
    weightNormalized dict → weightNormalized (tableLoop rows dict html).1 := by
  intro rows
  induction rows with
  | nil => intro dict html h; exact h
  | cons r rest ih =>
    intro dict html h
    rcases hc : r.cells with _ | ⟨c0, rest0⟩
    · simp only [tableLoop, hc]
      exact ih _ _ h
    · rcases hc2 : rest0 with _ | ⟨c1, rest1⟩
      · simp only [tableLoop, hc, hc2]
        exact ih _ _ h
      · simp only [tableLoop, hc, hc2]
        apply ih
        by_cases hcond : (stripStr c0 ≠ "" && !dictHas dict (lowerStr (stripStr c0))) = true
        · rw [if_pos hcond]
          intro kv hkv hw
          rcases List.mem_append.mp hkv with hm | hm
          · exact h kv hm hw
          · rcases List.mem_singleton.mp hm with rfl
            exact ⟨stripStr c1, weightAdjust_normalized _ _ hw⟩
        · rw [if_neg hcond]
          exact h

lemma acceptPair_weight (st : List (String × String) × List (String × String))
    (key value : String) (h : weightNormalized st.1)
    (hv : strContains (lowerStr key) "weight" = true → ∃ raw, value = process_weight_value raw) :
    weightNormalized (acceptPair st key value).1 := by
  show weightNormalized
    (if !dictHas st.1 (lowerStr key) then st.1 ++ [(lowerStr key, value)] else st.1)
  by_cases hd : (!dictHas st.1 (lowerStr key)) = true
  · rw [if_pos hd]
    intro kv hkv hw
    rcases List.mem_append.mp hkv with hm | hm
    · exact h kv hm hw
    · rcases List.mem_singleton.mp hm with rfl
      exact hv hw
  · rw [if_neg hd]
    exact h

lemma specRowsLoop_weight : ∀ (l : List SpecRowElem)
    (st : List (String × String) × List (String × String)),
    weightNormalized st.1 → weightNormalized (specRowsLoop l st).1 := by
  intro l
  induction l with
  | nil => intro st h; exact h
  | cons e rest ih =>
    intro st h
    rcases hk : e.keyTexts with _ | ⟨k0, ks⟩
    · simp only [specRowsLoop, hk]; exact ih st h
    · rcases hv : e.valTexts with _ | ⟨v0, vs⟩
      · simp only [specRowsLoop, hk, hv]; exact ih st h
      · simp only [specRowsLoop, hk, hv]
        apply ih
        by_cases hkey : stripStr k0 ≠ ""
        · rw [if_pos hkey]
          exact acceptPair_weight st _ _ h
            (fun hw => ⟨stripStr v0, weightAdjust_normalized _ _ hw⟩)
        · rw [if_neg hkey]; exact h

lemma dlPairsLoop_weight : ∀ (l : List (String × String))
    (st : List (String × String) × List (String × String)),
    weightNormalized st.1 → weightNormalized (dlPairsLoop l st).1 := by
  intro l
  induction l with
  | nil => intro st h; exact h
  | cons p rest ih =>
    intro st h
    rcases p with ⟨t, df⟩
    simp only [dlPairsLoop]
    apply ih
    by_cases hkey : stripStr t ≠ ""
    · rw [if_pos hkey]
      exact acceptPair_weight st _ _ h
        (fun hw => ⟨stripStr df, weightAdjust_normalized _ _ hw⟩)
    · rw [if_neg hkey]; exact h

lemma dlLoop_weight : ∀ (l : List DefListElem)
    (st : List (String × String) × List (String × String)),
    weightNormalized st.1 → weightNormalized (dlLoop l st).1 := by
  intro l
  induction l with
  | nil => intro st h; exact h
  | cons dl rest ih =>
    intro st h
    simp only [dlLoop]
    exact ih _ (dlPairsLoop_weight _ st h)

lemma tryPattern_weight (sep : Char) (s k v : String) (h : tryPattern sep s = some (k, v)) :
    strContains (lowerStr k) "weight" = true → ∃ raw, v = process_weight_value raw := by
  unfold tryPattern at h
  rcases hm : reMatchKV sep s.data with _ | ⟨g1, g2⟩
  · rw [hm] at h; simp at h
  · rw [hm] at h
    simp only [] at h
    by_cases hc : (commonSpecsList.any fun sp =>
        strContains (lowerStr ⟨stripChars g1⟩) sp) = true
    · rw [if_pos hc] at h
      have hk : k = (⟨stripChars g1⟩ : String) := by
        injection h with h'
        exact (congrArg Prod.fst h').symm
      have hval : v = weightAdjust (⟨stripChars g1⟩ : String) (⟨stripChars g2⟩ : String) := by
        injection h with h'
        exact (congrArg Prod.snd h').symm
      subst hk
      intro hw
      rw [hval, weightAdjust_normalized _ _ hw]
      exact ⟨_, rfl⟩
    · rw [if_neg hc] at h; simp at h

lemma textPair_weight (s k v : String) (h : textPair s = some (k, v)) :
    strContains (lowerStr k) "weight" = true → ∃ raw, v = process_weight_value raw := by
  unfold textPair at h
  rcases hp : tryPattern ':' s with _ | kv
  · rw [hp] at h
    exact tryPattern_weight '-' s k v h
  · rw [hp] at h
    injection h with h'
    subst h'
    exact tryPattern_weight ':' s k v hp

lemma textLoop_weight : ∀ (l : List String)
    (st : List (String × String) × List (String × String)),
    weightNormalized st.1 → weightNormalized (textLoop l st).1 := by
  intro l
  induction l with
  | nil => intro st h; exact h
  | cons e rest ih =>
    intro st h
    by_cases hskip : (stripStr e == "" || (stripStr e).length > 100) = true
    · simp only [textLoop, hskip, if_true]; exact ih st h
    · simp only [textLoop, hskip, Bool.false_eq_true, if_false]
      rcases hp : textPair (stripStr e) with _ | ⟨k, v⟩
      · exact ih st h
      · apply ih
        -- the stored dictionary key is `lowerStr k`; its weight test coincides
        -- with the accept-time test on `lowerStr k`
        exact acceptPair_weight st k v h (textPair_weight _ k v hp)

lemma fallbackSpecs_weight (d : Doc) : weightNormalized (fallbackSpecs d).1 := by
  have h1 : weightNormalized (specRowsLoop d.specRowElems ([], [])).1 :=
    specRowsLoop_weight _ _ weightNormalized_nil
  simp only [fallbackSpecs]
  by_cases e1 : (specRowsLoop d.specRowElems ([], [])).2.isEmpty = true
  · rw [if_pos e1]
    have h2 : weightNormalized (dlLoop d.defLists (specRowsLoop d.specRowElems ([], []))).1 :=
      dlLoop_weight _ _ h1
    by_cases e2 : (dlLoop d.defLists (specRowsLoop d.specRowElems ([], []))).2.isEmpty = true
    · rw [if_pos e2]
      exact textLoop_weight _ _ h2
    · rw [if_neg e2]
      exact h2
  · rw [if_neg e1, if_neg e1]
    exact h1

lemma extract_table_data_weight (d : Doc) : weightNormalized (extract_table_data d).1 := by
  unfold extract_table_data
  cases htab : (if d.specsTables.isEmpty then d.genericTables else d.specsTables) with
  | nil => exact fallbackSpecs_weight d
  | cons t ts => exact tableLoop_weight t.rows [] "" weightNormalized_nil

/-- The specs with the row loop's weight re-normalization
(`main.py:830-833`) applied up front. -/
def normalizeWeightSpecs (specs : List (String × String)) : List (String × String) :=
  specs.map (fun kv =>
    if strContains (lowerStr kv.1) "weight" then (kv.1, process_weight_value kv.2) else kv)

/-- The spec-column mapping WITHOUT the weight re-normalization step:
used to state that `buildSpecCols` equals plain placement after
`normalizeWeightSpecs`. -/
def buildSpecColsPlain (fields : List String) (specs : List (String × String)) :
    List (String × String) :=
  specs.foldl (fun cols kv =>
    match fields.find? (fun f =>
        lowerStr kv.1 == lowerStr f || strContains (lowerStr f) (lowerStr kv.1)) with
    | some f => setCol cols (pyTitle f) kv.2
    | none => cols)
    (fields.map (fun f => (pyTitle f, "")))

lemma buildSpecCols_fold_eq (fields : List String) : ∀ (specs : List (String × String))
    (cols0 : List (String × String)),
    specs.foldl (fun cols kv =>
      let value := if strContains (lowerStr kv.1) "weight" then process_weight_value kv.2
        else kv.2
      match fields.find? (fun f =>
          lowerStr kv.1 == lowerStr f || strContains (lowerStr f) (lowerStr kv.1)) with
      | some f => setCol cols (pyTitle f) value
      | none => cols) cols0 =
    (normalizeWeightSpecs specs).foldl (fun cols kv =>
      match fields.find? (fun f =>
          lowerStr kv.1 == lowerStr f || strContains (lowerStr f) (lowerStr kv.1)) with
      | some f => setCol cols (pyTitle f) kv.2
      | none => cols) cols0 := by
  intro specs
  induction specs with
  | nil => intro cols0; rfl
  | cons kv rest ih =>
    intro cols0
    simp only [normalizeWeightSpecs, List.map_cons, List.foldl_cons]
    by_cases hw : strContains (lowerStr kv.1) "weight" = true
    · simp only [if_pos hw]
      have := ih (match fields.find? (fun f =>
          lowerStr kv.1 == lowerStr f || strContains (lowerStr f) (lowerStr kv.1)) with
        | some f => setCol cols0 (pyTitle f) (process_weight_value kv.2)
        | none => cols0)
      simpa [normalizeWeightSpecs] using this
    · simp only [if_neg hw]
      have := ih (match fields.find? (fun f =>
          lowerStr kv.1 == lowerStr f || strContains (lowerStr f) (lowerStr kv.1)) with
        | some f => setCol cols0 (pyTitle f) kv.2
        | none => cols0)
      simpa [normalizeWeightSpecs] using this

lemma buildSpecCols_eq_plain (fields : List String) (specs : List (String × String)) :
    buildSpecCols fields specs = buildSpecColsPlain fields (normalizeWeightSpecs specs) :=
  buildSpecCols_fold_eq fields specs (fields.map (fun f => (pyTitle f, "")))

/-- C10: the weight normalizer is not idempotent — for every input with
a numeric token, applying it twice yields the decimal printing of
`ceil(ceil(n)+5)+5 = ceil(n)+10` plus the trimmed unit — and the weight
values stored by every extraction strategy of the Spec Extractor are
already normalized, while the Row Processor's column mapping
re-normalizes every weight-keyed spec value before placement
(`buildSpecCols` equals plain placement after a second
`process_weight_value`), so scraped weight values reach their output
column with the +5 offset applied twice. -/
theorem C10_double_weight_normalization :
    (∀ (s : String) (ip fp : List Char), findNumericToken s.data = some (ip, fp) →
      process_weight_value (process_weight_value s) =
        (⟨natToDigits (⌈tokenValue ip fp⌉ + 10).toNat⟩ : String) ++
          (if stripChars (unitsRun s.data) ≠ [] then
            " " ++ (⟨stripChars (unitsRun s.data)⟩ : String) else "")) ∧
    process_weight_value (process_weight_value "22.93 lbs") ≠
      process_weight_value "22.93 lbs" ∧
    (∀ d : Doc, weightNormalized (extract_table_data d).1) ∧
    (∀ (fields : List String) (specs : List (String × String)),
      buildSpecCols fields specs = buildSpecColsPlain fields (normalizeWeightSpecs specs)) := by
  refine ⟨?_, by decide, extract_table_data_weight, buildSpecCols_eq_plain⟩
  intro s ip fp hf
  have hdig := (findNumericToken_digits s.data ip fp hf).2.1
  have hc : (⌈tokenValue ip fp⌉ + 10).toNat = ceilTok ip fp + 10 := by
    rw [ceil_tokenValue ip fp hdig]; omega
  rw [hc]
  exact pwv_double s ip fp hf

/-- Closed instance of `C10_double_weight_normalization` at
`"22.93 lbs"`: twice-normalized values gain the offset twice
(`28 lbs`, then `33 lbs`). -/
theorem C10_double_weight_normalization_witness :
    findNumericToken ("22.93 lbs" : String).data = some (['2', '2'], ['9', '3']) ∧
    process_weight_value (process_weight_value "22.93 lbs") =
      (⟨natToDigits (⌈tokenValue ['2', '2'] ['9', '3']⌉ + 10).toNat⟩ : String) ++
        (if stripChars (unitsRun ("22.93 lbs" : String).data) ≠ [] then
          " " ++ (⟨stripChars (unitsRun ("22.93 lbs" : String).data)⟩ : String) else "") :=
  ⟨by decide,
    C10_double_weight_normalization.1 "22.93 lbs" ['2', '2'] ['9', '3'] (by decide)⟩
